import Mathlib

/-!
Shallow embedding of `src/app.js` (dog-adoption demo app): localStorage-backed
accounts, session, pet profiles, the asynchronous file-ingestion pipeline of
`savePetInfo`, and the listing page renderer, together with theorems checking
the specification's claims about them.
-/

namespace App

/-- A file record as stored inside a pet profile: the original filename and
the data-URL produced by `FileReader.readAsDataURL` (src/app.js lines
150-173). -/
structure FileRecord where
  name : String
  data : String
deriving DecidableEq

/-- A user-selected file handed to the file-ingestion pipeline. The `dataUrl`
field carries the result that the black-box file-reading primitive will
deliver for this file once its asynchronous read completes. -/
structure SelectedFile where
  name : String
  dataUrl : String
deriving DecidableEq

/-- The pet profile object built in `savePetInfo` (src/app.js lines
179-184). -/
structure Pet where
  name : String
  description : String
  vetFile : Option FileRecord
  photos : List FileRecord
deriving DecidableEq

/-- An account record as created by `handleSignup` (src/app.js lines
61-66). -/
structure User where
  email : String
  password : String
  fund : ℚ
  pet : Option Pet
deriving DecidableEq

/-- The persistent localStorage state the app uses: the decoded account list
stored under key "users" and the session marker stored under key
"currentUser". -/
structure Storage where
  users : List User
  currentUser : Option String
deriving DecidableEq

/-- The ASCII fragment of JavaScript's per-character lower-casing: code
points 65-90 ('A'-'Z') map 32 positions up, every other character is
unchanged. -/
def lowerChar (c : Char) : Char :=
  if 65 ≤ c.toNat ∧ c.toNat ≤ 90 then Char.ofNat (c.toNat + 32) else c

/-- `String.prototype.toLowerCase()` (ASCII fragment), as applied to the
email inputs (src/app.js lines 43 and 77). -/
def jsToLower (s : String) : String :=
  ⟨s.data.map lowerChar⟩

/-- `String.prototype.trim()`: strip leading and trailing whitespace
(src/app.js lines 43, 77, 134 and 135). -/
def jsTrim (s : String) : String :=
  ⟨((s.data.dropWhile Char.isWhitespace).reverse.dropWhile
      Char.isWhitespace).reverse⟩

/-- The email normalization `input.trim().toLowerCase()` applied by both
signup and login (src/app.js lines 43 and 77). -/
def normalizeEmail (s : String) : String :=
  jsToLower (jsTrim s)

/-- JSON values: the possible results of a successful `JSON.parse`. -/
inductive Json where
  | null
  | bool (b : Bool)
  | num (q : ℚ)
  | str (s : String)
  | arr (elems : List Json)
  | obj (fields : List (String × Json))

/-- `getUsers` (src/app.js lines 13-21). `stored` is
`localStorage.getItem('users')` (`none` = key absent); `parse` models
`JSON.parse`, with `none` meaning the parse throws. The result is the value
`getUsers` returns — the parsed JSON, unvalidated — together with a flag
recording whether the catch branch logged an error. JS truthiness: an empty
stored string is falsy, so `data ? JSON.parse(data) : []` yields `[]` without
parsing. -/
def getUsers (stored : Option String) (parse : String → Option Json) :
    Json × Bool :=
  match stored with
  | none => (Json.arr [], false)
  | some data =>
    if data = "" then (Json.arr [], false)
    else
      match parse data with
      | some j => (j, false)
      | none => (Json.arr [], true)

/-- Decoding a JSON value as a file record `{name, data}` (the expected
structure per spec §3). -/
def decodeFileRecord (j : Json) : Option FileRecord :=
  match j with
  | .obj fields =>
    match fields.lookup "name", fields.lookup "data" with
    | some (.str n), some (.str d) => some ⟨n, d⟩
    | _, _ => none
  | _ => none

/-- Decoding a JSON value as a pet profile (the expected structure per
spec §3). -/
def decodePet (j : Json) : Option Pet :=
  match j with
  | .obj fields =>
    match fields.lookup "name", fields.lookup "description",
          fields.lookup "photos" with
    | some (.str n), some (.str d), some (.arr js) =>
      match js.mapM decodeFileRecord with
      | some ps =>
        match fields.lookup "vetFile" with
        | some .null => some ⟨n, d, none, ps⟩
        | some jv => (decodeFileRecord jv).map fun v => ⟨n, d, some v, ps⟩
        | none => none
      | none => none
    | _, _, _ => none
  | _ => none

/-- Decoding a JSON value as an account record (the expected structure per
spec §3). -/
def decodeUser (j : Json) : Option User :=
  match j with
  | .obj fields =>
    match fields.lookup "email", fields.lookup "password",
          fields.lookup "fund", fields.lookup "pet" with
    | some (.str e), some (.str p), some (.num q), some petJ =>
      match petJ with
      | .null => some ⟨e, p, q, none⟩
      | _ => (decodePet petJ).map fun pet => ⟨e, p, q, some pet⟩
    | _, _, _, _ => none
  | _ => none

/-- Decoding a stored JSON blob as the expected structure: an array of
account records. -/
def decodeUsers (j : Json) : Option (List User) :=
  match j with
  | .arr js => js.mapM decodeUser
  | _ => none

/-- `findUser` (src/app.js lines 35-38): first account in the list whose
stored email equals the query exactly. -/
def findUser (users : List User) (email : String) : Option User :=
  users.find? (fun u => u.email == email)

/-- Outcome of a signup attempt, one constructor per message assigned to
`signup-error` plus the success redirect (src/app.js lines 41-72). -/
inductive SignupResult where
  | fieldsRequired
  | mismatch
  | alreadyExists
  | success
deriving DecidableEq

/-- `handleSignup` (src/app.js lines 41-72) acting on the storage state:
normalize the email (trim + lower-case), validate (empty fields, password
mismatch, duplicate email — first failure wins, storage untouched), then
append the new account with fund 4 and no pet, persist, and set the
session. -/
def handleSignup (st : Storage) (emailInput password confirm : String) :
    Storage × SignupResult :=
  let email := normalizeEmail emailInput
  if email = "" ∨ password = "" ∨ confirm = "" then
    (st, .fieldsRequired)
  else if password ≠ confirm then
    (st, .mismatch)
  else if st.users.any (fun u => u.email == email) then
    (st, .alreadyExists)
  else
    let newUser : User := { email := email, password := password, fund := 4, pet := none }
    ({ users := st.users ++ [newUser], currentUser := some email }, .success)

/-- Outcome of a login attempt (src/app.js lines 75-88). -/
inductive LoginResult where
  | invalidCredentials
  | success
deriving DecidableEq

/-- `handleLogin` (src/app.js lines 75-88): normalize the email, look the
account up by exact match on the stored email; missing account or wrong
password both yield the same generic error and leave storage unchanged;
otherwise set the session to the normalized email. -/
def handleLogin (st : Storage) (emailInput password : String) :
    Storage × LoginResult :=
  let email := normalizeEmail emailInput
  match findUser st.users email with
  | none => (st, .invalidCredentials)
  | some u =>
    if u.password ≠ password then (st, .invalidCredentials)
    else ({ st with currentUser := some email }, .success)

/-- The in-flight state of one `savePetInfo` invocation (src/app.js lines
133-191): the session user's email, the validated (trimmed) name and
description, the reads still outstanding, the results accumulated so far by
the onload handlers (`vetObj`, `photos`), the storage as the save sees it,
and whether the `Promise.all` callback has run. -/
structure SaveState where
  email : String
  name : String
  desc : String
  pendingVet : Option SelectedFile
  pendingPhotos : List SelectedFile
  vetObj : Option FileRecord
  photos : List FileRecord
  store : Storage
  saved : Bool
deriving DecidableEq

/-- Completion of one `FileReader` task (the onload handler): one selected
file yields exactly one `{filename, data-URL}` record (src/app.js lines
152-154 and 166-168). -/
def readFile (f : SelectedFile) : FileRecord :=
  { name := f.name, data := f.dataUrl }

/-- The account update inside the `Promise.all` callback (src/app.js lines
176-186): `users.findIndex(u => u.email === email)` followed by
`users[idx].pet = petObj` replaces the pet field of the first account whose
email matches. If no account matches, the JS code faults on `users[-1]`
before reaching `setUsers`, so the stored list is not modified. -/
def updatePet (users : List User) (email : String) (petObj : Pet) :
    List User :=
  match users with
  | [] => []
  | u :: rest =>
    if u.email == email then { u with pet := some petObj } :: rest
    else u :: updatePet rest email petObj

/-- The synchronous prefix of `savePetInfo` (src/app.js lines 133-174): trim
the name and description, reject if either is empty (no read tasks spawned,
storage untouched), otherwise register one pending read for the first
selected certificate file (if any) and one pending read per selected
photo. -/
def initSave (st : Storage) (email rawName rawDesc : String)
    (vetFiles : List SelectedFile) (photoFiles : List SelectedFile) :
    Option SaveState :=
  let name := jsTrim rawName
  let desc := jsTrim rawDesc
  if name = "" ∨ desc = "" then none
  else some
    { email := email, name := name, desc := desc
      pendingVet := vetFiles.head?
      pendingPhotos := photoFiles
      vetObj := none, photos := [], store := st, saved := false }

/-- Scheduler events for the asynchronous part of `savePetInfo`: completion
of the certificate read, completion of the i-th still-pending photo read,
and the `Promise.all` barrier firing once every registered promise has
resolved. A read that fails is one whose completion event never occurs in
the trace (spec §4.6 failure mode), which in turn keeps the barrier
disabled. -/
inductive Ev where
  | vetDone
  | photoDone (i : Nat)
  | allDone
deriving DecidableEq

/-- One scheduler step. `vetDone` runs the certificate onload handler,
`photoDone i` runs the onload handler of the i-th outstanding photo read
(appending its record in completion order, src/app.js line 167), and
`allDone` runs the `Promise.all` callback — enabled only when no read is
outstanding and the callback has not run yet (it fires at most once). Events
whose guard fails leave the state unchanged. -/
def step (s : SaveState) (e : Ev) : SaveState :=
  match e with
  | .vetDone =>
    match s.pendingVet with
    | some f => { s with vetObj := some (readFile f), pendingVet := none }
    | none => s
  | .photoDone i =>
    match s.pendingPhotos[i]? with
    | some f =>
      { s with photos := s.photos ++ [readFile f]
               pendingPhotos := s.pendingPhotos.eraseIdx i }
    | none => s
  | .allDone =>
    if s.pendingVet = none ∧ s.pendingPhotos = [] ∧ s.saved = false then
      let petObj : Pet :=
        { name := s.name, description := s.desc
          vetFile := s.vetObj, photos := s.photos }
      { s with
        store := { s.store with users := updatePet s.store.users s.email petObj }
        saved := true }
    else s

/-- Run a whole trace of scheduler events. -/
def run (s : SaveState) (es : List Ev) : SaveState :=
  es.foldl step s

/-- One summary card rendered by `loadDogsPage` for an account whose pet
field is set (src/app.js lines 238-262). -/
structure Card where
  imgSrc : String
  imgAlt : String
  title : String
  description : String
  fundText : String
deriving DecidableEq

/-- `Number.prototype.toFixed(2)` as used on the fund (src/app.js lines 112
and 259): round to the nearest hundredth and print with exactly two decimal
digits. -/
def toFixed2 (q : ℚ) : String :=
  let cents : ℤ := Int.fdiv (200 * q.num + (q.den : ℤ)) (2 * (q.den : ℤ))
  let sign := if cents < 0 then "-" else ""
  let n := cents.natAbs
  sign ++ toString (n / 100) ++ "." ++
    (if n % 100 < 10 then "0" else "") ++ toString (n % 100)

/-- The card built for one account with a pet (src/app.js lines 238-262):
first photo's data-URL or the fixed placeholder image, the pet's name as
image alt text and heading, the description, and the fund formatted to two
decimals with the currency suffix. -/
def renderCard (u : User) (pet : Pet) : Card :=
  { imgSrc :=
      match pet.photos with
      | [] => "images/real2.jpg"
      | ph :: _ => ph.data
    imgAlt := pet.name
    title := pet.name
    description := pet.description
    fundText := "Cagnotte: " ++ toFixed2 u.fund ++ " €" }

/-- `loadDogsPage` (src/app.js lines 230-274): iterate the accounts, append
one card per account whose pet field is set, and display the no-dogs message
iff the count of such accounts is zero (the count equals the number of cards
appended). Returns the card list and whether the message is displayed. -/
def loadDogsPage (users : List User) : List Card × Bool :=
  let cards := users.filterMap (fun u => u.pet.map (renderCard u))
  (cards, cards.length == 0)

/-- Modelled from the spec (claim C10's reading of §4.2): case-insensitive
lookup — the first account whose identifier equals the query up to letter
case. -/
def findUserCI (users : List User) (email : String) : Option User :=
  users.find? (fun u => jsToLower u.email == jsToLower email)

/-- Invariant on stored account lists: every stored identifier is the
trimmed, lower-cased form of some raw input — exactly the shape
`handleSignup` stores (src/app.js line 43). -/
def NormalizedUsers (users : List User) : Prop :=
  ∀ u ∈ users, ∃ raw : String, u.email = normalizeEmail raw

/-- A concrete model of `JSON.parse` on the input "5": valid JSON, so the
parse succeeds, producing the number 5 — which is not an array of account
records. -/
def parseNum5 : String → Option Json :=
  fun s => if s = "5" then some (Json.num 5) else none

/-- C1, counterexample: with "5" stored under the "users" key — present and
not parseable as the expected structure (an array of accounts) — `getUsers`
neither logs nor returns the empty sequence: `JSON.parse` succeeds, and the
ill-shaped value is handed back to the caller unvalidated. -/
theorem getUsers_wrong_shape_cex :
    getUsers (some "5") parseNum5 = (Json.num 5, false) ∧
    decodeUsers (getUsers (some "5") parseNum5).1 = none ∧
    (getUsers (some "5") parseNum5).1 ≠ Json.arr [] := by
  refine ⟨rfl, rfl, fun h => ?_⟩
  exact nomatch h

/-- C1, amended: `getUsers` never throws to its caller; if the key is absent
(or holds the empty string, which JS treats as falsy) it returns the empty
sequence, and if the stored value makes `JSON.parse` throw it logs the
failure and returns the empty sequence — but a stored value that parses as
JSON without being an array of the expected account structure is returned
as-is, unvalidated and without a log. -/
theorem getUsers_total_recovery (stored : Option String)
    (parse : String → Option Json) :
    (stored = none → getUsers stored parse = (Json.arr [], false)) ∧
    (stored = some "" → getUsers stored parse = (Json.arr [], false)) ∧
    (∀ s, stored = some s → s ≠ "" → parse s = none →
      getUsers stored parse = (Json.arr [], true)) ∧
    (∀ s j, stored = some s → s ≠ "" → parse s = some j →
      getUsers stored parse = (j, false)) := by
  refine ⟨fun h => by rw [h, getUsers], fun h => by rw [h, getUsers]; rfl,
    fun s hs hne hp => ?_, fun s j hs hne hp => ?_⟩
  · rw [hs, getUsers, if_neg (by simpa using hne), hp]
  · rw [hs, getUsers, if_neg (by simpa using hne), hp]

/-- Witness for C1's amended theorem: a stored blob on which `JSON.parse`
throws is recovered to the empty sequence with a log. -/
theorem getUsers_total_recovery_witness :
    getUsers (some "not-json") (fun _ => none) = (Json.arr [], true) :=
  (getUsers_total_recovery (some "not-json") (fun _ => none)).2.2.1
    "not-json" rfl (by decide) rfl

/-- C2: login succeeds iff an account whose stored identifier equals the
trimmed, lower-cased input exists and its stored secret equals the supplied
secret exactly; on success the session is set to the normalized identifier
(and the account list is untouched); otherwise the one generic
invalid-credentials error is reported and the state is unchanged. -/
theorem login_iff (st : Storage) (e p : String) :
    ((handleLogin st e p).2 = .success ↔
      ∃ u, findUser st.users (normalizeEmail e) = some u ∧ u.password = p) ∧
    ((handleLogin st e p).2 = .success →
      handleLogin st e p =
        ({ st with currentUser := some (normalizeEmail e) }, .success)) ∧
    ((handleLogin st e p).2 ≠ .success →
      handleLogin st e p = (st, .invalidCredentials)) := by
  rcases hf : findUser st.users (normalizeEmail e) with _ | u
  · simp [handleLogin, hf]
  · by_cases hp : u.password = p
    · simp [handleLogin, hf, hp]
    · simp [handleLogin, hf, hp]

/-- Witness for C2: a correct (identifier, secret) pair logs in. -/
theorem login_iff_witness :
    (handleLogin ⟨[⟨"a@x.com", "pw1", 4, none⟩], none⟩ " A@X.com" "pw1").2 =
      .success :=
  (login_iff ⟨[⟨"a@x.com", "pw1", 4, none⟩], none⟩ " A@X.com" "pw1").1.mpr
    ⟨⟨"a@x.com", "pw1", 4, none⟩, by decide, rfl⟩

/-- C3: registration validates in the order empty-fields, then
secret/confirmation mismatch, then duplicate identifier — the first failure
wins and leaves the state untouched — and on success exactly one new account
with fund 4 and no profile is appended, persisted, and made the session. -/
theorem signup_spec (st : Storage) (e p c : String) :
    (normalizeEmail e = "" ∨ p = "" ∨ c = "" →
      handleSignup st e p c = (st, .fieldsRequired)) ∧
    (¬(normalizeEmail e = "" ∨ p = "" ∨ c = "") → p ≠ c →
      handleSignup st e p c = (st, .mismatch)) ∧
    (¬(normalizeEmail e = "" ∨ p = "" ∨ c = "") → p = c →
      (∃ u ∈ st.users, u.email = normalizeEmail e) →
      handleSignup st e p c = (st, .alreadyExists)) ∧
    (¬(normalizeEmail e = "" ∨ p = "" ∨ c = "") → p = c →
      (∀ u ∈ st.users, u.email ≠ normalizeEmail e) →
      handleSignup st e p c =
        ({ users := st.users ++
            [{ email := normalizeEmail e, password := p, fund := 4, pet := none }],
           currentUser := some (normalizeEmail e) }, .success)) := by
  unfold handleSignup
  refine ⟨fun h => by rw [if_pos h],
    fun h1 h2 => by rw [if_neg h1, if_pos h2],
    fun h1 h2 h3 => ?_, fun h1 h2 h3 => ?_⟩
  · rw [if_neg h1, if_neg (by simpa using h2),
      if_pos (by simpa [List.any_eq_true] using h3)]
  · rw [if_neg h1, if_neg (by simpa using h2),
      if_neg (by simpa [List.any_eq_true] using h3)]

/-- Witness for C3: a fresh registration succeeds and appends the one new
account with fund 4 and no profile. -/
theorem signup_spec_witness :
    handleSignup ⟨[], none⟩ " A@X.com" "pw1" "pw1" =
      (⟨[⟨"a@x.com", "pw1", 4, none⟩], some "a@x.com"⟩, .success) :=
  (signup_spec ⟨[], none⟩ " A@X.com" "pw1" "pw1").2.2.2
    (by decide) rfl (by decide)

/-- C4: once a registration for an identifier has succeeded, a second
registration whose identifier normalizes to the same string (any letter
case) never succeeds and never changes the stored state; whenever the second
attempt passes the field and confirmation checks, the reported error is
precisely the duplicate error. -/
theorem signup_duplicate_rejected (st st' : Storage) (e p c e2 p2 c2 : String)
    (h1 : handleSignup st e p c = (st', .success))
    (h2 : normalizeEmail e2 = normalizeEmail e) :
    (handleSignup st' e2 p2 c2).1 = st' ∧
    (handleSignup st' e2 p2 c2).2 ≠ .success ∧
    (p2 ≠ "" → p2 = c2 → handleSignup st' e2 p2 c2 = (st', .alreadyExists)) := by
  unfold handleSignup at h1
  by_cases hA : normalizeEmail e = "" ∨ p = "" ∨ c = ""
  · rw [if_pos hA] at h1; simp at h1
  rw [if_neg hA] at h1
  by_cases hB : p ≠ c
  · rw [if_pos hB] at h1; simp at h1
  rw [if_neg hB] at h1
  by_cases hC : st.users.any (fun u => u.email == normalizeEmail e) = true
  · rw [if_pos hC] at h1; simp at h1
  rw [if_neg hC] at h1
  have hst' : st' =
      { users := st.users ++
          [{ email := normalizeEmail e, password := p, fund := 4, pet := none }],
        currentUser := some (normalizeEmail e) } :=
    (congrArg Prod.fst h1).symm
  have hne : normalizeEmail e ≠ "" := fun h => hA (Or.inl h)
  have hdup : st'.users.any (fun u => u.email == normalizeEmail e2) = true := by
    subst hst'
    simp [List.any_eq_true, h2]
  by_cases hA2 : normalizeEmail e2 = "" ∨ p2 = "" ∨ c2 = ""
  · unfold handleSignup
    rw [if_pos hA2]
    refine ⟨rfl, nofun, fun hp2 hpc2 => ?_⟩
    rcases hA2 with h | h | h
    · exact absurd (h2.symm.trans h) hne
    · exact absurd h hp2
    · exact absurd (hpc2.trans h) hp2
  · unfold handleSignup
    rw [if_neg hA2]
    by_cases hB2 : p2 ≠ c2
    · rw [if_pos hB2]
      exact ⟨rfl, nofun, fun _ hpc2 => absurd hpc2 hB2⟩
    · rw [if_neg hB2, if_pos hdup]
      exact ⟨rfl, nofun, fun _ _ => rfl⟩

/-- Witness for C4: after registering "a@x.com", registering "A@X.COM" is
rejected as a duplicate with the stored state unchanged. -/
theorem signup_duplicate_rejected_witness :
    handleSignup ⟨[⟨"a@x.com", "pw1", 4, none⟩], some "a@x.com"⟩
        "A@X.COM" "zz" "zz" =
      (⟨[⟨"a@x.com", "pw1", 4, none⟩], some "a@x.com"⟩, .alreadyExists) :=
  (signup_duplicate_rejected ⟨[], none⟩
      ⟨[⟨"a@x.com", "pw1", 4, none⟩], some "a@x.com"⟩
      "a@x.com" "pw1" "pw1" "A@X.COM" "zz" "zz"
      (by decide) (by decide)).2.2 (by decide) rfl

/-- Modelled from the spec (§4.8, for claim C9): the summary card as the
spec describes it — first photo or the fixed placeholder image, the profile
name, the description, and the fund formatted to two decimal places with a
currency suffix. -/
def specCard (u : User) (pet : Pet) : Card :=
  { imgSrc :=
      match pet.photos.head? with
      | some ph => ph.data
      | none => "images/real2.jpg"
    imgAlt := pet.name
    title := pet.name
    description := pet.description
    fundText := "Cagnotte: " ++ toFixed2 u.fund ++ " €" }

/-- The card the code renders coincides with the card the spec describes. -/
theorem renderCard_eq_specCard (u : User) (pet : Pet) :
    renderCard u pet = specCard u pet := by
  cases h : pet.photos <;> simp [renderCard, specCard, h]

/-- The number of cards equals the number of accounts with a profile. -/
theorem length_cards_eq_countP (users : List User) :
    (users.filterMap (fun u => u.pet.map (renderCard u))).length =
      users.countP (fun u => u.pet.isSome) := by
  induction users with
  | nil => rfl
  | cons u rest ih =>
    cases h : u.pet <;>
      simp [List.filterMap_cons, List.countP_cons, h, ih]

/-- C9: the listing shows the empty-state indicator iff zero accounts have a
profile, and renders exactly one card per account with a profile, each card
carrying exactly the fields the spec describes (first photo or placeholder,
name, description, fund to two decimals plus currency suffix). -/
theorem dogs_listing_spec (users : List User) :
    ((loadDogsPage users).2 = true ↔ ∀ u ∈ users, u.pet = none) ∧
    (loadDogsPage users).1.length = users.countP (fun u => u.pet.isSome) ∧
    (loadDogsPage users).1 =
      users.filterMap (fun u => u.pet.map (specCard u)) := by
  refine ⟨?_, length_cards_eq_countP users, ?_⟩
  · simp only [loadDogsPage, beq_iff_eq, List.length_eq_zero,
      List.filterMap_eq_nil_iff, Option.map_eq_none']
  · simp only [loadDogsPage]
    have h : (fun (u : User) => u.pet.map (renderCard u)) =
        (fun u => u.pet.map (specCard u)) := by
      funext u
      cases hu : u.pet <;> simp [hu, renderCard_eq_specCard]
    rw [h]

/-- Witness for C9: with no profiles the empty-state indicator is shown, and
one profile yields exactly one card. -/
theorem dogs_listing_spec_witness :
    (loadDogsPage []).2 = true ∧
    (loadDogsPage [⟨"a@x.com", "pw1", 4,
        some ⟨"Rex", "good dog", none, []⟩⟩]).1.length = 1 :=
  ⟨(dogs_listing_spec []).1.mpr (by decide),
   by rw [(dogs_listing_spec _).2.1]; decide⟩

theorem run_nil (s : SaveState) : run s [] = s := rfl

theorem run_cons (s : SaveState) (e : Ev) (es : List Ev) :
    run s (e :: es) = run (step s e) es := rfl

/-- Once the barrier callback has run, every further event is a no-op: the
pending sets are empty, so read completions do nothing, and the barrier
does not fire twice. -/
theorem run_of_saved (s : SaveState) (es : List Ev)
    (h : s.saved = true) (hv : s.pendingVet = none)
    (hp : s.pendingPhotos = []) :
    run s es = s := by
  induction es with
  | nil => rfl
  | cons e es ih =>
    have hs : step s e = s := by
      cases e with
      | vetDone => simp [step, hv]
      | photoDone i => simp [step, hp]
      | allDone => simp [step, h]
    rw [run_cons, hs]
    exact ih

/-- Core invariant of one `savePetInfo` run started in un-saved state: the
identifying fields are constant, the storage is untouched as long as the
barrier has not fired, and once it has fired all reads had completed and the
stored list is exactly the initial list with the target account's pet
replaced wholesale by the profile built from this run's read results. -/
theorem run_inv (s0 : SaveState) (es : List Ev) (h0 : s0.saved = false) :
    (run s0 es).email = s0.email ∧ (run s0 es).name = s0.name ∧
    (run s0 es).desc = s0.desc ∧
    ((run s0 es).saved = false → (run s0 es).store = s0.store) ∧
    ((run s0 es).saved = true →
      (run s0 es).pendingVet = none ∧ (run s0 es).pendingPhotos = [] ∧
      (run s0 es).store = { s0.store with
        users := updatePet s0.store.users s0.email
          { name := s0.name, description := s0.desc
            vetFile := (run s0 es).vetObj
            photos := (run s0 es).photos } }) := by
  induction es generalizing s0 with
  | nil =>
    exact ⟨rfl, rfl, rfl, fun _ => rfl,
      fun hs => absurd (h0.symm.trans hs) (by simp)⟩
  | cons e es ih =>
    rw [run_cons]
    cases e with
    | vetDone =>
      cases hv : s0.pendingVet with
      | none =>
        have hs : step s0 .vetDone = s0 := by simp [step, hv]
        rw [hs]; exact ih s0 h0
      | some f =>
        have hs : step s0 .vetDone =
            { s0 with vetObj := some (readFile f), pendingVet := none } := by
          simp [step, hv]
        rw [hs]
        exact ih _ h0
    | photoDone i =>
      cases hg : s0.pendingPhotos[i]? with
      | none =>
        have hs : step s0 (.photoDone i) = s0 := by simp [step, hg]
        rw [hs]; exact ih s0 h0
      | some f =>
        have hs : step s0 (.photoDone i) =
            { s0 with photos := s0.photos ++ [readFile f]
                      pendingPhotos := s0.pendingPhotos.eraseIdx i } := by
          simp [step, hg]
        rw [hs]
        exact ih _ h0
    | allDone =>
      by_cases hgd : s0.pendingVet = none ∧ s0.pendingPhotos = [] ∧
          s0.saved = false
      · have hs : step s0 .allDone =
            { s0 with
              store := { s0.store with
                users := updatePet s0.store.users s0.email
                  { name := s0.name, description := s0.desc
                    vetFile := s0.vetObj, photos := s0.photos } }
              saved := true } := by
          simp only [step]
          rw [if_pos hgd]
        rw [hs, run_of_saved _ es (by rfl) (by exact hgd.1) (by exact hgd.2.1)]
        exact ⟨rfl, rfl, rfl, fun hfalse => absurd hfalse (by simp),
          fun _ => ⟨hgd.1, hgd.2.1, rfl⟩⟩
      · have hs : step s0 .allDone = s0 := by
          simp only [step]
          rw [if_neg hgd]
        rw [hs]; exact ih s0 h0

/-- Replacing the pet of the account found by `findUser` makes the
subsequent lookup return that account with exactly the new pet. -/
theorem findUser_updatePet (users : List User) (email : String)
    (petObj : Pet) (u : User) (hu : findUser users email = some u) :
    findUser (updatePet users email petObj) email =
      some { u with pet := some petObj } := by
  induction users with
  | nil => simp [findUser] at hu
  | cons v rest ih =>
    by_cases hv : v.email = email
    · have h1 : findUser (v :: rest) email = some v :=
        List.find?_cons_of_pos rest (by simp [hv])
    -- the first match is the found account
      have hvu : v = u := Option.some_inj.mp (h1.symm.trans hu)
      subst hvu
      have h3 : updatePet (v :: rest) email petObj =
          { v with pet := some petObj } :: rest := by
        simp only [updatePet]
        rw [if_pos (by simp [hv])]
      rw [h3]
      exact List.find?_cons_of_pos rest (by simp [hv])
    · have h1 : findUser (v :: rest) email = findUser rest email :=
        List.find?_cons_of_neg rest (by simp [hv])
      rw [h1] at hu
      have h3 : updatePet (v :: rest) email petObj =
          v :: updatePet rest email petObj := by
        simp only [updatePet]
        rw [if_neg (by simp [hv])]
      rw [h3]
      have h4 : findUser (v :: updatePet rest email petObj) email =
          findUser (updatePet rest email petObj) email :=
        List.find?_cons_of_neg _ (by simp [hv])
      rw [h4]
      exact ih hu

/-- Frame of the account update: the list keeps its length, every account
keeps its identifier, secret and fund, and every account whose identifier
differs from the target is completely unchanged. -/
theorem updatePet_frame (users : List User) (email : String) (petObj : Pet) :
    (updatePet users email petObj).length = users.length ∧
    ∀ (i : Nat) (u : User), users[i]? = some u →
      ∃ u' : User, (updatePet users email petObj)[i]? = some u' ∧
        u'.email = u.email ∧ u'.password = u.password ∧ u'.fund = u.fund ∧
        (u.email ≠ email → u' = u) := by
  induction users with
  | nil => exact ⟨rfl, fun i u hu => absurd hu (by simp)⟩
  | cons v rest ih =>
    by_cases hv : v.email = email
    · have hup : updatePet (v :: rest) email petObj =
          { v with pet := some petObj } :: rest := by
        simp only [updatePet]
        rw [if_pos (by simp [hv])]
      rw [hup]
      refine ⟨by simp, fun i u hu => ?_⟩
      cases i with
      | zero =>
        rw [List.getElem?_cons_zero] at hu
        cases hu
        exact ⟨{ v with pet := some petObj }, by simp,
          rfl, rfl, rfl, fun hne => absurd hv hne⟩
      | succ j =>
        rw [List.getElem?_cons_succ] at hu
        exact ⟨u, by simpa using hu, rfl, rfl, rfl, fun _ => rfl⟩
    · have hup : updatePet (v :: rest) email petObj =
          v :: updatePet rest email petObj := by
        simp only [updatePet]
        rw [if_neg (by simp [hv])]
      rw [hup]
      refine ⟨by simpa using ih.1, fun i u hu => ?_⟩
      cases i with
      | zero =>
        rw [List.getElem?_cons_zero] at hu
        cases hu
        exact ⟨v, by simp, rfl, rfl, rfl, fun _ => rfl⟩
      | succ j =>
        rw [List.getElem?_cons_succ] at hu
        obtain ⟨u', hu', h1, h2, h3, h4⟩ := ih.2 j u hu
        exact ⟨u', by simpa using hu', h1, h2, h3, h4⟩

/-- C7: the profile object is constructed and the account collection is
persisted only once every outstanding read (certificate and every photo) has
completed; as long as the barrier has not fired — in particular forever, if
some read never completes and so stays pending — the stored account
collection is exactly the initial one. -/
theorem save_waits_for_all_reads (s0 : SaveState) (es : List Ev)
    (h0 : s0.saved = false) :
    ((run s0 es).saved = true →
      (run s0 es).pendingVet = none ∧ (run s0 es).pendingPhotos = []) ∧
    ((run s0 es).saved = false → (run s0 es).store = s0.store) ∧
    ((run s0 es).pendingVet ≠ none ∨ (run s0 es).pendingPhotos ≠ [] →
      (run s0 es).store = s0.store) := by
  obtain ⟨-, -, -, hunsaved, hsaved⟩ := run_inv s0 es h0
  refine ⟨fun hs => ⟨(hsaved hs).1, (hsaved hs).2.1⟩, hunsaved,
    fun hpend => ?_⟩
  cases hsv : (run s0 es).saved
  · exact hunsaved hsv
  · rcases hpend with h | h
    · exact absurd (hsaved hsv).1 h
    · exact absurd (hsaved hsv).2.1 h

/-- Witness for C7: with one photo read that never completes, no trace
mutates the stored collection (here: the barrier-only trace). -/
theorem save_waits_for_all_reads_witness :
    (run
      { email := "a@x.com", name := "Rex", desc := "good dog"
        pendingVet := none, pendingPhotos := [⟨"p1.jpg", "u1"⟩]
        vetObj := none, photos := []
        store := ⟨[⟨"a@x.com", "pw", 4, none⟩], some "a@x.com"⟩
        saved := false }
      [.allDone]).store =
    (⟨[⟨"a@x.com", "pw", 4, none⟩], some "a@x.com"⟩ : Storage) :=
  (save_waits_for_all_reads
    { email := "a@x.com", name := "Rex", desc := "good dog"
      pendingVet := none, pendingPhotos := [⟨"p1.jpg", "u1"⟩]
      vetObj := none, photos := []
      store := ⟨[⟨"a@x.com", "pw", 4, none⟩], some "a@x.com"⟩
      saved := false }
    [.allDone] rfl).2.2 (Or.inr (by decide))

/-- C5: a save that completes wholly replaces the account's profile: the
profile read back afterwards is exactly the submitted name, description,
certificate record and photo records, with no merging of old and new file
lists. -/
theorem save_replaces_profile (s0 : SaveState) (es : List Ev) (u : User)
    (h0 : s0.saved = false)
    (hs : (run s0 es).saved = true)
    (hu : findUser s0.store.users s0.email = some u) :
    findUser (run s0 es).store.users s0.email =
      some { u with pet := some ⟨s0.name, s0.desc, (run s0 es).vetObj, (run s0 es).photos⟩ } := by
  obtain ⟨-, -, -, -, hsaved⟩ := run_inv s0 es h0
  rw [(hsaved hs).2.2]
  exact findUser_updatePet s0.store.users s0.email _ u hu

/-- Witness for C5: completing a save over an account that already had a
profile leaves exactly the newly submitted profile. -/
theorem save_replaces_profile_witness :
    findUser
      (run
        { email := "a@x.com", name := "Rex", desc := "good dog"
          pendingVet := none, pendingPhotos := []
          vetObj := none, photos := []
          store := ⟨[⟨"a@x.com", "pw", 4,
            some ⟨"Old", "old desc", none, [⟨"o.jpg", "od"⟩]⟩⟩], none⟩
          saved := false }
        [.allDone]).store.users "a@x.com" =
      some ⟨"a@x.com", "pw", 4, some ⟨"Rex", "good dog", none, []⟩⟩ :=
  save_replaces_profile
    { email := "a@x.com", name := "Rex", desc := "good dog"
      pendingVet := none, pendingPhotos := []
      vetObj := none, photos := []
      store := ⟨[⟨"a@x.com", "pw", 4,
        some ⟨"Old", "old desc", none, [⟨"o.jpg", "od"⟩]⟩⟩], none⟩
      saved := false }
    [.allDone]
    ⟨"a@x.com", "pw", 4, some ⟨"Old", "old desc", none, [⟨"o.jpg", "od"⟩]⟩⟩
    rfl (by decide) (by decide)

/-- C6: a save that completes changes at most the pet field of the account
with the saved identifier — the list keeps its length, every account keeps
its identifier, secret and fund, every account with a different identifier
is completely unchanged, and the session marker is untouched. -/
theorem save_frame (s0 : SaveState) (es : List Ev)
    (h0 : s0.saved = false) (hs : (run s0 es).saved = true) :
    (run s0 es).store.currentUser = s0.store.currentUser ∧
    (run s0 es).store.users.length = s0.store.users.length ∧
    ∀ (i : Nat) (u : User), s0.store.users[i]? = some u →
      ∃ u' : User, (run s0 es).store.users[i]? = some u' ∧
        u'.email = u.email ∧ u'.password = u.password ∧ u'.fund = u.fund ∧
        (u.email ≠ s0.email → u' = u) := by
  obtain ⟨-, -, -, -, hsaved⟩ := run_inv s0 es h0
  rw [(hsaved hs).2.2]
  exact ⟨rfl, (updatePet_frame s0.store.users s0.email _).1,
    (updatePet_frame s0.store.users s0.email _).2⟩

/-- Witness for C6: in a completed save over two accounts, the other account
and the target's identifier, secret and fund are unchanged. -/
theorem save_frame_witness :
    (run
      { email := "a@x.com", name := "Rex", desc := "good dog"
        pendingVet := none, pendingPhotos := []
        vetObj := none, photos := []
        store := ⟨[⟨"a@x.com", "pw", 4, none⟩, ⟨"b@y.org", "pw2", 4, none⟩],
          some "a@x.com"⟩
        saved := false }
      [.allDone]).store.users.length = 2 :=
  ((save_frame
    { email := "a@x.com", name := "Rex", desc := "good dog"
      pendingVet := none, pendingPhotos := []
      vetObj := none, photos := []
      store := ⟨[⟨"a@x.com", "pw", 4, none⟩, ⟨"b@y.org", "pw2", 4, none⟩],
        some "a@x.com"⟩
      saved := false }
    [.allDone] rfl (by decide)).2.1).trans rfl

/-- The still-pending photo files a trace actually reads, listed in the
order in which their completion events occur. -/
def completionOrder (pend : List SelectedFile) : List Ev → List SelectedFile
  | [] => []
  | Ev.photoDone i :: es =>
    match pend[i]? with
    | some f => f :: completionOrder (pend.eraseIdx i) es
    | none => completionOrder pend es
  | _ :: es => completionOrder pend es

/-- A list is a permutation of any of its elements consed onto the list with
that element's position removed. -/
theorem perm_cons_eraseIdx {α : Type} (l : List α) (i : Nat) (a : α)
    (h : l[i]? = some a) : l.Perm (a :: l.eraseIdx i) := by
  induction l generalizing i with
  | nil => simp at h
  | cons b rest ih =>
    cases i with
    | zero =>
      rw [List.getElem?_cons_zero] at h
      cases h
      simp [List.eraseIdx]
    | succ j =>
      rw [List.getElem?_cons_succ] at h
      exact ((ih j h).cons b).trans (List.Perm.swap a b (rest.eraseIdx j))

/-- C8: the photo records accumulate in exactly the completion order of the
asynchronous reads — the final photo sequence is the initial one extended by
one record per completed read, in completion order; reads completed plus
reads still pending account exactly for the selected photos, and once every
read has completed the records are a permutation of the selected photos'
records (so each completed read contributed exactly one record). -/
theorem photos_follow_completion_order (s0 : SaveState) (es : List Ev) :
    (run s0 es).photos =
      s0.photos ++ (completionOrder s0.pendingPhotos es).map readFile ∧
    (completionOrder s0.pendingPhotos es ++ (run s0 es).pendingPhotos).Perm
      s0.pendingPhotos ∧
    ((run s0 es).pendingPhotos = [] →
      (run s0 es).photos.Perm
        (s0.photos ++ s0.pendingPhotos.map readFile)) := by
  have main : ∀ (es : List Ev) (s0 : SaveState),
      (run s0 es).photos =
        s0.photos ++ (completionOrder s0.pendingPhotos es).map readFile ∧
      (completionOrder s0.pendingPhotos es ++ (run s0 es).pendingPhotos).Perm
        s0.pendingPhotos := by
    intro es
    induction es with
    | nil =>
      exact fun s0 =>
        ⟨by simp [run_nil, completionOrder], by simp [run_nil, completionOrder]⟩
    | cons e es ih =>
      intro s0
      rw [run_cons]
      cases e with
      | vetDone =>
        have h1 : (step s0 .vetDone).photos = s0.photos := by
          cases hv : s0.pendingVet <;> simp [step, hv]
        have h2 : (step s0 .vetDone).pendingPhotos = s0.pendingPhotos := by
          cases hv : s0.pendingVet <;> simp [step, hv]
        have hco : completionOrder s0.pendingPhotos (Ev.vetDone :: es) =
            completionOrder s0.pendingPhotos es := rfl
        obtain ⟨ihp, ihq⟩ := ih (step s0 .vetDone)
        rw [h1, h2] at ihp
        rw [h2] at ihq
        rw [hco]
        exact ⟨ihp, ihq⟩
      | allDone =>
        have h1 : (step s0 .allDone).photos = s0.photos := by
          by_cases hg : s0.pendingVet = none ∧ s0.pendingPhotos = [] ∧
              s0.saved = false
          · simp only [step]; rw [if_pos hg]
          · simp only [step]; rw [if_neg hg]
        have h2 : (step s0 .allDone).pendingPhotos = s0.pendingPhotos := by
          by_cases hg : s0.pendingVet = none ∧ s0.pendingPhotos = [] ∧
              s0.saved = false
          · simp only [step]; rw [if_pos hg]
          · simp only [step]; rw [if_neg hg]
        have hco : completionOrder s0.pendingPhotos (Ev.allDone :: es) =
            completionOrder s0.pendingPhotos es := rfl
        obtain ⟨ihp, ihq⟩ := ih (step s0 .allDone)
        rw [h1, h2] at ihp
        rw [h2] at ihq
        rw [hco]
        exact ⟨ihp, ihq⟩
      | photoDone i =>
        cases hg : s0.pendingPhotos[i]? with
        | none =>
          have hs : step s0 (.photoDone i) = s0 := by simp [step, hg]
          have hco : completionOrder s0.pendingPhotos (Ev.photoDone i :: es) =
              completionOrder s0.pendingPhotos es := by
            simp only [completionOrder, hg]
          rw [hs, hco]
          exact ih s0
        | some f =>
          have hs : step s0 (.photoDone i) =
              { s0 with photos := s0.photos ++ [readFile f]
                        pendingPhotos := s0.pendingPhotos.eraseIdx i } := by
            simp [step, hg]
          have hco : completionOrder s0.pendingPhotos (Ev.photoDone i :: es) =
              f :: completionOrder (s0.pendingPhotos.eraseIdx i) es := by
            simp only [completionOrder, hg]
          rw [hs, hco]
          obtain ⟨ihp, ihq⟩ := ih
            { s0 with photos := s0.photos ++ [readFile f]
                      pendingPhotos := s0.pendingPhotos.eraseIdx i }
          refine ⟨by simpa [List.append_assoc] using ihp, ?_⟩
          exact (ihq.cons f).trans (perm_cons_eraseIdx _ i f hg).symm
  obtain ⟨hp, hq⟩ := main es s0
  refine ⟨hp, hq, fun hnil => ?_⟩
  rw [hp]
  refine List.Perm.append_left s0.photos (List.Perm.map readFile ?_)
  rw [hnil] at hq
  simpa using hq

/-- Witness for C8: two photos completed in reverse order yield the records
in completion order, a permutation of the selected photos' records. -/
theorem photos_follow_completion_order_witness :
    (run
      { email := "a@x.com", name := "Rex", desc := "good dog"
        pendingVet := none
        pendingPhotos := [⟨"p1.jpg", "u1"⟩, ⟨"p2.jpg", "u2"⟩]
        vetObj := none, photos := []
        store := ⟨[⟨"a@x.com", "pw", 4, none⟩], some "a@x.com"⟩
        saved := false }
      [.photoDone 1, .photoDone 0, .allDone]).photos.Perm
      (([] : List FileRecord) ++
        [⟨"p1.jpg", "u1"⟩, ⟨"p2.jpg", "u2"⟩].map readFile) :=
  (photos_follow_completion_order
    { email := "a@x.com", name := "Rex", desc := "good dog"
      pendingVet := none
      pendingPhotos := [⟨"p1.jpg", "u1"⟩, ⟨"p2.jpg", "u2"⟩]
      vetObj := none, photos := []
      store := ⟨[⟨"a@x.com", "pw", 4, none⟩], some "a@x.com"⟩
      saved := false }
    [.photoDone 1, .photoDone 0, .allDone]).2.2 (by decide)

/-- Converting a valid code point to a character and back is the identity. -/
theorem toNat_ofNat_of_valid {n : Nat} (h : n.isValidChar) :
    (Char.ofNat n).toNat = n := by
  unfold Char.ofNat
  rw [dif_pos h]
  rfl

/-- A lower-cased character is outside the upper-case ASCII range, so
lower-casing twice equals lower-casing once. -/
theorem lowerChar_idem (c : Char) : lowerChar (lowerChar c) = lowerChar c := by
  by_cases h : 65 ≤ c.toNat ∧ c.toNat ≤ 90
  · have hval : Nat.isValidChar (c.toNat + 32) := Or.inl (by omega)
    have htn : (Char.ofNat (c.toNat + 32)).toNat = c.toNat + 32 :=
      toNat_ofNat_of_valid hval
    have h1 : lowerChar c = Char.ofNat (c.toNat + 32) := by
      rw [lowerChar, if_pos h]
    have h2 : ¬(65 ≤ (Char.ofNat (c.toNat + 32)).toNat ∧
        (Char.ofNat (c.toNat + 32)).toNat ≤ 90) := by
      rw [htn]; omega
    rw [h1, lowerChar, if_neg h2]
  · have h1 : lowerChar c = c := by rw [lowerChar, if_neg h]
    rw [h1, h1]

/-- Lower-casing a string is idempotent. -/
theorem jsToLower_idem (s : String) : jsToLower (jsToLower s) = jsToLower s := by
  simp only [jsToLower]
  apply congrArg
  show (s.data.map lowerChar).map lowerChar = s.data.map lowerChar
  rw [List.map_map]
  exact List.map_congr_left fun a _ => lowerChar_idem a

/-- A normalized email is a fixed point of lower-casing. -/
theorem jsToLower_normalizeEmail (s : String) :
    jsToLower (normalizeEmail s) = normalizeEmail s :=
  jsToLower_idem (jsTrim s)

/-- On a collection whose identifiers are all normalized, exact-match lookup
with a lower-case-stable query coincides with case-insensitive lookup. -/
theorem findUser_eq_findUserCI (q : String) (hq : jsToLower q = q) :
    ∀ users : List User, NormalizedUsers users →
      findUser users q = findUserCI users q := by
  intro users
  induction users with
  | nil => intro _; rfl
  | cons v rest ih =>
    intro hn
    have hv : jsToLower v.email = v.email := by
      obtain ⟨raw, hraw⟩ := hn v (List.mem_cons_self v rest)
      rw [hraw]
      exact jsToLower_normalizeEmail raw
    have hcond : (jsToLower v.email == jsToLower q) = (v.email == q) := by
      rw [hv, hq]
    cases hb : (v.email == q)
    · have l1 : findUser (v :: rest) q = findUser rest q :=
        List.find?_cons_of_neg rest (by simp [hb])
      have l2 : findUserCI (v :: rest) q = findUserCI rest q :=
        List.find?_cons_of_neg rest (by simp [hcond, hb])
      rw [l1, l2]
      exact ih fun u hu => hn u (List.mem_cons_of_mem v hu)
    · have l1 : findUser (v :: rest) q = some v :=
        List.find?_cons_of_pos rest (by simp [hb])
      have l2 : findUserCI (v :: rest) q = some v :=
        List.find?_cons_of_pos rest (by simp [hcond, hb])
      rw [l1, l2]

/-- C10: every account stored by registration has a trimmed, lower-cased
identifier; login never touches the account list and a profile save never
alters identifiers, so the invariant holds on all reachable collections —
and on such collections the exact-match lookup applied to a trimmed,
lower-cased input is equivalent to a case-insensitive lookup. -/
theorem normalized_lookup_equiv :
    (∀ st e p c, NormalizedUsers st.users →
      NormalizedUsers (handleSignup st e p c).1.users) ∧
    (∀ st e p, (handleLogin st e p).1.users = st.users) ∧
    (∀ users email petObj, NormalizedUsers users →
      NormalizedUsers (updatePet users email petObj)) ∧
    (∀ users raw, NormalizedUsers users →
      findUser users (normalizeEmail raw) =
        findUserCI users (normalizeEmail raw)) := by
  refine ⟨?_, ?_, ?_, ?_⟩
  · intro st e p c hn
    unfold handleSignup
    by_cases h1 : normalizeEmail e = "" ∨ p = "" ∨ c = ""
    · rw [if_pos h1]; exact hn
    rw [if_neg h1]
    by_cases h2 : p ≠ c
    · rw [if_pos h2]; exact hn
    rw [if_neg h2]
    by_cases h3 : st.users.any (fun u => u.email == normalizeEmail e) = true
    · rw [if_pos h3]; exact hn
    rw [if_neg h3]
    intro u hu
    rcases List.mem_append.mp hu with h | h
    · exact hn u h
    · rw [List.mem_singleton] at h
      subst h
      exact ⟨e, rfl⟩
  · intro st e p
    rcases hf : findUser st.users (normalizeEmail e) with _ | u
    · simp [handleLogin, hf]
    · by_cases hp : u.password = p <;> simp [handleLogin, hf, hp]
  · intro users email petObj
    induction users with
    | nil => exact fun hn => hn
    | cons v rest ih =>
      intro hn u hu
      by_cases hv : v.email = email
      · have hup : updatePet (v :: rest) email petObj =
            { v with pet := some petObj } :: rest := by
          simp only [updatePet]
          rw [if_pos (by simp [hv])]
        rw [hup] at hu
        rcases List.mem_cons.mp hu with h | h
        · subst h
          obtain ⟨raw, hraw⟩ := hn v (List.mem_cons_self v rest)
          exact ⟨raw, hraw⟩
        · exact hn u (List.mem_cons_of_mem v h)
      · have hup : updatePet (v :: rest) email petObj =
            v :: updatePet rest email petObj := by
          simp only [updatePet]
          rw [if_neg (by simp [hv])]
        rw [hup] at hu
        rcases List.mem_cons.mp hu with h | h
        · subst h
          exact hn _ (List.mem_cons_self _ _)
        · exact ih (fun w hw => hn w (List.mem_cons_of_mem v hw)) u h
  · intro users raw hn
    exact findUser_eq_findUserCI (normalizeEmail raw)
      (jsToLower_normalizeEmail raw) users hn

/-- Witness for C10: on a one-account collection stored by registration, the
exact-match lookup of a differently-cased input's normalization agrees with
the case-insensitive lookup. -/
theorem normalized_lookup_equiv_witness :
    findUser [⟨"a@x.com", "pw", 4, none⟩] (normalizeEmail " A@X.Com") =
      findUserCI [⟨"a@x.com", "pw", 4, none⟩] (normalizeEmail " A@X.Com") :=
  normalized_lookup_equiv.2.2.2 [⟨"a@x.com", "pw", 4, none⟩] " A@X.Com"
    (fun u hu => ⟨"a@x.com", by
      rw [List.mem_singleton] at hu
      subst hu
      decide⟩)

end App
